import Mathlib

/-!
Verification of the `DelayLine` class of `pyroadacoustics` (`src/DelayLine.py`)
against its natural-language specification.

The Python code computes with IEEE floats; the embedding gives it exact real
semantics (`ℝ`), the standard idealization for the spec's tolerance-style
claims.  Python `int` values become `ℤ`, numpy float arrays become `List ℝ`,
and a raised exception becomes `Except.error`: `ValueError` is
`DLError.invalidArgument`, `RuntimeError` is `DLError.outOfRange`, and an
out-of-bounds `delay[i]` access (an `IndexError` in Python) is
`DLError.indexError`.
-/

namespace Pyroadacoustics

/-- Error kinds raised by the delay line, in the spec's taxonomy:
Python `ValueError` ↦ `invalidArgument`, `RuntimeError` ↦ `outOfRange`,
`IndexError` (a too-short `delay` argument) ↦ `indexError`. -/
inductive DLError : Type
  | invalidArgument
  | outOfRange
  | indexError
deriving DecidableEq

/-- State of a `DelayLine` object: the fields set by `__init__` and mutated by
`set_delays` / `update_delay_line`. -/
structure DelayLine : Type where
  N : ℤ
  write_ptr : ℤ
  read_ptr : List ℝ
  delay_line : List ℝ
  interpolation : String

noncomputable section

open Classical in
/-- Model of `DelayLine.__init__(N, num_read_ptrs, interpolation)` (lines 90-101). -/
def create (N : ℤ) (num_read_ptrs : ℤ) (interpolation : String) :
    Except DLError DelayLine :=
  if N ≤ 0 then .error .invalidArgument
  else if num_read_ptrs ≤ 0 then .error .invalidArgument
  else if interpolation ≠ "Linear" ∧ interpolation ≠ "Lagrange" ∧ interpolation ≠ "Sinc" then
    .error .invalidArgument
  else .ok { N := N, write_ptr := 0,
             read_ptr := List.replicate num_read_ptrs.toNat (0 : ℝ),
             delay_line := List.replicate N.toNat (0 : ℝ),
             interpolation := interpolation }

open Classical in
/-- Model of `DelayLine.set_delays(delay)` (lines 103-136).  All three validations
happen before the read-pointer loop, so a failing call returns an error with
no state mutated.  On success, `read_ptr[i] = write_ptr - delay[i]`, plus `N`
once if that is negative (single `if`, not a loop). -/
def set_delays (st : DelayLine) (delay : List ℝ) : Except DLError DelayLine :=
  if ∃ d ∈ delay, d ≤ 0 then .error .invalidArgument
  else if delay.length ≠ st.read_ptr.length then .error .invalidArgument
  else if ∃ d ∈ delay, (st.N : ℝ) ≤ d then .error .outOfRange
  else .ok { st with read_ptr := delay.map (fun d =>
      let r := (st.write_ptr : ℝ) - d
      if r < 0 then r + (st.N : ℝ) else r) }

open Classical in
/-- The loop body of `_frac_delay_lagrange` for one value of `k`
(line 279): `h[j] = h[j] * (delay - k) / (j - k)` for every index `j ≠ k`,
`h[k]` untouched.  First argument of the recursion is the index `j` of the
list head. -/
def lagrange_update (delay : ℝ) (k : ℕ) : ℕ → List ℝ → List ℝ
  | _, [] => []
  | j, hj :: rest =>
    (if j = k then hj else hj * (delay - (k : ℝ)) / ((j : ℝ) - (k : ℝ))) ::
      lagrange_update delay k (j + 1) rest

/-- Model of `DelayLine._frac_delay_lagrange(order, delay)` (lines 252-280):
starts from `h = ones(order+1)` and applies `lagrange_update` for
`k = 0, …, order`, so `h[j] = Π_{k ≠ j} (delay - k) / (j - k)`. -/
def frac_delay_lagrange (order : ℕ) (delay : ℝ) : List ℝ :=
  (List.range (order + 1)).foldl (fun h k => lagrange_update delay k 0 h)
    (List.replicate (order + 1) (1 : ℝ))

open Classical in
/-- Model of `np.sinc`: the normalized sinc, `sin(π x) / (π x)` with `sinc 0 = 1`. -/
def npSinc (x : ℝ) : ℝ :=
  if x = 0 then 1 else Real.sin (Real.pi * x) / (Real.pi * x)

/-- Model of `np.hanning(M)`: the `M`-point Hann window,
`w[n] = 0.5 - 0.5 cos(2 π n / (M - 1))` for `n = 0, …, M-1`. -/
def hanning (M : ℕ) : List ℝ :=
  (List.range M).map (fun n : ℕ =>
    0.5 - 0.5 * Real.cos (2 * Real.pi * (n : ℝ) / ((M : ℝ) - 1)))

/-- Model of `DelayLine._frac_delay_sinc(sinc_samples, sinc_window, delay)` (line 300):
`sinc_window * np.sinc(np.arange(0, sinc_samples) - (sinc_samples - 1)/2 - delay)`,
an elementwise product. -/
def frac_delay_sinc (sinc_samples : ℕ) (sinc_window : List ℝ) (delay : ℝ) : List ℝ :=
  List.zipWith (fun w t => w * npSinc t) sinc_window
    ((List.range sinc_samples).map (fun i : ℕ =>
      (i : ℝ) - ((sinc_samples : ℝ) - 1) / 2 - delay))

open Classical in
/-- Model of `DelayLine._interpolated_read(read_ptr_integer, d, method)` (lines 187-250).
Buffer taps of the Lagrange and Sinc convolution loops are read at
`np.mod(read_ptr_integer + i - floor(taps/2), N)`; for a positive modulus
numpy's floor-mod agrees with `Int.emod`.  The Linear branch reads
`delay_line[np.mod(read_ptr_integer + 1, N)]` and
`delay_line[read_ptr_integer]`; the latter raw index is assumed in range
(guaranteed by the class invariant; Python negative-index wrapping is not
modelled). -/
def interpolated_read (dl : List ℝ) (N : ℤ) (read_ptr_integer : ℤ) (d : ℝ)
    (method : String) : Except DLError ℝ :=
  if method = "Lagrange" then
    let order : ℕ := 5
    let h := frac_delay_lagrange order d
    .ok ((List.range (order + 1)).foldl
      (fun out i =>
        out + h.getD i 0 * dl.getD ((read_ptr_integer + (i : ℤ) - (order / 2 : ℕ)) % N).toNat 0) 0)
  else if method = "Linear" then
    .ok (d * dl.getD ((read_ptr_integer + 1) % N).toNat 0
      + (1 - d) * dl.getD read_ptr_integer.toNat 0)
  else if method = "Sinc" then
    let sinc_samples : ℕ := 11
    let sinc_window := hanning sinc_samples
    let h := frac_delay_sinc sinc_samples sinc_window d
    .ok ((List.range sinc_samples).foldl
      (fun out i =>
        out + h.getD i 0 * dl.getD ((read_ptr_integer + (i : ℤ) - (sinc_samples / 2 : ℕ)) % N).toNat 0) 0)
  else .error .invalidArgument

open Classical in
/-- Loop `while read_ptr[i] < 0: read_ptr[i] += N` (lines 179-180).  The guard
carries `0 < N` so that the recursion is well founded; a constructed
`DelayLine` always has `0 < N` (with `N ≤ 0` the Python loop would simply
never terminate). -/
def whileAddN (N : ℤ) (x : ℝ) : ℝ :=
  if h : 0 < N ∧ x < 0 then whileAddN N (x + (N : ℝ)) else x
termination_by (⌈-x / (N : ℝ)⌉).toNat
decreasing_by
  obtain ⟨hN, hx⟩ := h
  have hNR : (0 : ℝ) < (N : ℝ) := by exact_mod_cast hN
  have h2 : (0 : ℤ) < ⌈-x / (N : ℝ)⌉ := Int.ceil_pos.mpr (div_pos (by linarith) hNR)
  have h1 : -(x + (N : ℝ)) / (N : ℝ) = -x / (N : ℝ) - 1 := by
    field_simp
    ring
  rw [h1]
  rw [show (-x / (N : ℝ) - 1) = (-x / (N : ℝ) - (1 : ℤ)) by push_cast; ring]
  rw [Int.ceil_sub_int]
  omega

open Classical in
/-- Loop `while read_ptr[i] >= N: read_ptr[i] -= N` (lines 183-184), with the same
`0 < N` guard for well-foundedness. -/
def whileSubN (N : ℤ) (x : ℝ) : ℝ :=
  if h : 0 < N ∧ (N : ℝ) ≤ x then whileSubN N (x - (N : ℝ)) else x
termination_by (⌊x / (N : ℝ)⌋).toNat
decreasing_by
  obtain ⟨hN, hx⟩ := h
  have hNR : (0 : ℝ) < (N : ℝ) := by exact_mod_cast hN
  have h2 : (1 : ℤ) ≤ ⌊x / (N : ℝ)⌋ := by
    rw [Int.le_floor]
    push_cast
    rw [le_div_iff₀ hNR]
    linarith
  have h1 : (x - (N : ℝ)) / (N : ℝ) = x / (N : ℝ) - 1 := by
    rw [sub_div, div_self (ne_of_gt hNR)]
  rw [h1]
  rw [show (x / (N : ℝ) - 1) = (x / (N : ℝ) - (1 : ℤ)) by push_cast; ring]
  rw [Int.floor_sub_int]
  omega

/-- Loop `while write_ptr >= N: write_ptr -= N` (lines 181-182) on the integer
write pointer, with the same `0 < N` guard. -/
def whileSubW (N : ℤ) (w : ℤ) : ℤ :=
  if h : 0 < N ∧ N ≤ w then whileSubW N (w - N) else w
termination_by w.toNat
decreasing_by omega

/-- The reader loop of `update_delay_line` (lines 168-184), recursing over the
read pointers paired with the entries of `delay`.  For reader `i`:
split `read_ptr[i]` into `rpi = floor` and fractional part, produce `y[i]` by
`_interpolated_read`, then retarget `read_ptr[i] = write_ptr - delay[i]` and
run the three wraparound `while` loops in source order.  A `delay` list
shorter than `read_ptr` is Python's `IndexError`.  Returns
`(y, write_ptr, read_ptr)`. -/
def reader_loop (N : ℤ) (dl : List ℝ) (method : String) :
    ℤ → List ℝ → List ℝ → Except DLError (List ℝ × ℤ × List ℝ)
  | wp, [], _ => .ok ([], wp, [])
  | _, _ :: _, [] => .error .indexError
  | wp, rp :: rps, d :: ds =>
    match interpolated_read dl N ⌊rp⌋ (rp - (⌊rp⌋ : ℝ)) method with
    | .error e => .error e
    | .ok y =>
      let r1 := (wp : ℝ) - d
      let r2 := whileAddN N r1
      let wp1 := whileSubW N wp
      let r3 := whileSubN N r2
      match reader_loop N dl method wp1 rps ds with
      | .error e => .error e
      | .ok (ys, wpf, rpsf) => .ok (y :: ys, wpf, r3 :: rpsf)

/-- Model of `DelayLine.update_delay_line(x, delay)` (lines 138-185): write `x` at the
write pointer, increment it, then run the reader loop.  Returns the output
vector `y` together with the new state. -/
def update_delay_line (st : DelayLine) (x : ℝ) (delay : List ℝ) :
    Except DLError (List ℝ × DelayLine) :=
  let dl1 := st.delay_line.set st.write_ptr.toNat x
  match reader_loop st.N dl1 st.interpolation (st.write_ptr + 1) st.read_ptr delay with
  | .error e => .error e
  | .ok (ys, wpf, rpsf) =>
    .ok (ys, { st with delay_line := dl1, write_ptr := wpf, read_ptr := rpsf })

/-- Drive the delay line for a list of `(x, delay)` arguments, one
`update_delay_line` call per element, collecting the output vectors. -/
def run_collect (st : DelayLine) : List (ℝ × List ℝ) → Except DLError (List (List ℝ) × DelayLine)
  | [] => .ok ([], st)
  | (x, ds) :: rest =>
    match update_delay_line st x ds with
    | .error e => .error e
    | .ok (ys, st1) =>
      match run_collect st1 rest with
      | .error e => .error e
      | .ok (yss, stf) => .ok (ys :: yss, stf)

/-- The buffer indices accessed by each branch of `_interpolated_read`:
Lagrange taps `(k + i - 2) % N` for `i < 6`, Linear taps `(k+1) % N` and `k`
itself, Sinc taps `(k + i - 5) % N` for `i < 11`. -/
def accessed_indices (method : String) (k N : ℤ) : List ℤ :=
  if method = "Lagrange" then (List.range 6).map (fun i : ℕ => (k + (i : ℤ) - 2) % N)
  else if method = "Linear" then [(k + 1) % N, k]
  else if method = "Sinc" then (List.range 11).map (fun i : ℕ => (k + (i : ℤ) - 5) % N)
  else []

/-- The recognized interpolation modes. -/
def ValidMode (method : String) : Prop :=
  method = "Linear" ∨ method = "Lagrange" ∨ method = "Sinc"

/-- Class invariant of a constructed `DelayLine`. -/
def Inv (st : DelayLine) : Prop :=
  0 < st.N ∧ 0 ≤ st.write_ptr ∧ st.write_ptr < st.N ∧
    (∀ r ∈ st.read_ptr, 0 ≤ r ∧ r < (st.N : ℝ)) ∧
    ValidMode st.interpolation ∧ st.read_ptr ≠ [] ∧
    st.delay_line.length = st.N.toNat

/-- A concrete buffer with ten distinct sample values, used as input to the
concrete counterexample and witness theorems. -/
def exampleBuffer : List ℝ := [0, 1, 2, 3, 4, 5, 6, 7, 8, 9]

end

/-! ### Helper lemmas -/

lemma linear_ne_lagrange : ("Linear" : String) ≠ "Lagrange" := by decide

lemma sinc_ne_lagrange : ("Sinc" : String) ≠ "Lagrange" := by decide

lemma sinc_ne_linear : ("Sinc" : String) ≠ "Linear" := by decide

/-! ### Helper lemmas about the wraparound loops -/

lemma whileAddN_of_nonneg (N : ℤ) (x : ℝ) (hx : 0 ≤ x) : whileAddN N x = x := by
  rw [whileAddN, dif_neg]
  rintro ⟨-, h⟩
  exact absurd hx (not_le.mpr h)

lemma whileAddN_of_neg (N : ℤ) (x : ℝ) (hN : 0 < N) (hx : x < 0) :
    whileAddN N x = whileAddN N (x + (N : ℝ)) := by
  conv_lhs => rw [whileAddN]
  rw [dif_pos ⟨hN, hx⟩]

lemma whileSubN_of_lt (N : ℤ) (x : ℝ) (hx : x < (N : ℝ)) : whileSubN N x = x := by
  rw [whileSubN, dif_neg]
  rintro ⟨-, h⟩
  exact absurd hx (not_lt.mpr h)

lemma whileSubN_of_ge (N : ℤ) (x : ℝ) (hN : 0 < N) (hx : (N : ℝ) ≤ x) :
    whileSubN N x = whileSubN N (x - (N : ℝ)) := by
  conv_lhs => rw [whileSubN]
  rw [dif_pos ⟨hN, hx⟩]

lemma whileSubW_of_lt (N : ℤ) (w : ℤ) (hw : w < N) : whileSubW N w = w := by
  rw [whileSubW, dif_neg]
  rintro ⟨-, h⟩
  exact absurd hw (not_lt.mpr h)

lemma whileSubW_of_ge (N : ℤ) (w : ℤ) (hN : 0 < N) (hw : N ≤ w) :
    whileSubW N w = whileSubW N (w - N) := by
  conv_lhs => rw [whileSubW]
  rw [dif_pos ⟨hN, hw⟩]

/-- With `0 < N`, the `read_ptr += N` loop always ends nonnegative. -/
lemma whileAddN_nonneg (N : ℤ) (x : ℝ) (hN : 0 < N) : 0 ≤ whileAddN N x := by
  induction x using whileAddN.induct N with
  | case1 x h ih =>
    rw [whileAddN, dif_pos h]
    exact ih
  | case2 x h =>
    rw [whileAddN, dif_neg h]
    rcases not_and_or.mp h with h1 | h2
    · exact absurd hN h1
    · exact le_of_not_lt h2

/-- With `0 < N`, the `read_ptr -= N` loop always ends strictly below `N`. -/
lemma whileSubN_lt (N : ℤ) (x : ℝ) (hN : 0 < N) : whileSubN N x < (N : ℝ) := by
  induction x using whileSubN.induct N with
  | case1 x h ih =>
    rw [whileSubN, dif_pos h]
    exact ih
  | case2 x h =>
    rw [whileSubN, dif_neg h]
    rcases not_and_or.mp h with h1 | h2
    · exact absurd hN h1
    · exact lt_of_not_le h2

/-- The `read_ptr -= N` loop keeps a nonnegative value nonnegative. -/
lemma whileSubN_nonneg (N : ℤ) (x : ℝ) : 0 ≤ x → 0 ≤ whileSubN N x := by
  induction x using whileSubN.induct N with
  | case1 x h ih =>
    intro hx
    rw [whileSubN, dif_pos h]
    exact ih (by linarith [h.2])
  | case2 x h =>
    intro hx
    rw [whileSubN, dif_neg h]
    exact hx

/-- On a nonnegative write pointer the `write_ptr -= N` loop computes the
Euclidean remainder mod `N`. -/
lemma whileSubW_eq_emod (N : ℤ) (w : ℤ) (hN : 0 < N) :
    0 ≤ w → whileSubW N w = w % N := by
  induction w using whileSubW.induct N with
  | case1 w h ih =>
    intro hw
    rw [whileSubW, dif_pos h]
    rw [ih (by omega)]
    conv_rhs => rw [show w = (w - N) + N * 1 by ring]
    rw [Int.add_mul_emod_self_left]
  | case2 w h =>
    intro hw
    rw [whileSubW, dif_neg h]
    rcases not_and_or.mp h with h1 | h2
    · exact absurd hN h1
    · exact (Int.emod_eq_of_lt hw (lt_of_not_le h2)).symm



/-- Closed form of the `j`-th Hann window coefficient. -/
lemma hanning_getD (M j : ℕ) (hj : j < M) :
    (hanning M).getD j 0
      = 0.5 - 0.5 * Real.cos (2 * Real.pi * (j : ℝ) / ((M : ℝ) - 1)) := by
  rw [hanning, List.getD_eq_getElem?_getD, List.getElem?_map, List.getElem?_range hj]
  rfl

/-- The function `np.sinc` is even. -/
lemma npSinc_neg (x : ℝ) : npSinc (-x) = npSinc x := by
  by_cases hx : x = 0
  · subst hx
    rw [neg_zero]
  · rw [npSinc, npSinc, if_neg (by simpa using hx), if_neg hx, mul_neg,
      Real.sin_neg, neg_div_neg_eq]

lemma interpolated_read_ok (dl : List ℝ) (N k : ℤ) (d : ℝ) (method : String)
    (hm : ValidMode method) :
    ∃ y, interpolated_read dl N k d method = .ok y := by
  rcases hm with h | h | h <;> subst h <;>
    simp [interpolated_read, linear_ne_lagrange, sinc_ne_lagrange, sinc_ne_linear]



/-- Behaviour of the reader loop: it succeeds for a recognized mode, computes
the wrapped write pointer, and leaves every new read pointer in `[0, N)`. -/
lemma reader_loop_spec (N : ℤ) (dl : List ℝ) (method : String)
    (hm : ValidMode method) (hN : 0 < N) :
    ∀ (rps ds : List ℝ) (wp : ℤ), 0 ≤ wp → ds.length = rps.length →
      ∃ ys wpf rpsf, reader_loop N dl method wp rps ds = .ok (ys, wpf, rpsf) ∧
        ys.length = rps.length ∧ rpsf.length = rps.length ∧
        (rps = [] → wpf = wp) ∧ (rps ≠ [] → wpf = wp % N) ∧
        ∀ r ∈ rpsf, 0 ≤ r ∧ r < (N : ℝ) := by
  intro rps
  induction rps with
  | nil =>
    intro ds wp hwp hlen
    have hds : ds = [] := List.eq_nil_of_length_eq_zero (by simpa using hlen)
    subst hds
    exact ⟨[], wp, [], rfl, rfl, rfl, fun _ => rfl, fun h => absurd rfl h, by simp⟩
  | cons rp rps ih =>
    intro ds wp hwp hlen
    match ds with
    | [] => simp at hlen
    | d :: ds' =>
      simp only [List.length_cons, Nat.succ_inj] at hlen
      obtain ⟨y, hy⟩ := interpolated_read_ok dl N ⌊rp⌋ (rp - (⌊rp⌋ : ℝ)) method hm
      have hwp1 : whileSubW N wp = wp % N := whileSubW_eq_emod N wp hN hwp
      have hwp1n : 0 ≤ wp % N := Int.emod_nonneg wp (ne_of_gt hN)
      obtain ⟨ys, wpf, rpsf, hrec, hysl, hrpl, hnil, hne, hbnd⟩ :=
        ih ds' (whileSubW N wp) (hwp1 ▸ hwp1n) hlen
      refine ⟨y :: ys, wpf, whileSubN N (whileAddN N ((wp : ℝ) - d)) :: rpsf, ?_, ?_, ?_, ?_, ?_, ?_⟩
      · simp only [reader_loop, hy, hrec]
      · simp [hysl]
      · simp [hrpl]
      · intro h
        exact absurd h (by simp)
      · intro _
        rcases List.eq_nil_or_concat rps with h | h
        · subst h
          rw [hnil rfl, hwp1]
        · have : rps ≠ [] := by
            rcases h with ⟨a, b, rfl⟩
            simp
          rw [hne this, hwp1, Int.emod_emod_of_dvd wp dvd_rfl]
      · intro r hr
        rcases List.mem_cons.mp hr with h | h
        · subst h
          exact ⟨whileSubN_nonneg N _ (whileAddN_nonneg N _ hN), whileSubN_lt N _ hN⟩
        · exact hbnd r h

/-- One `update_delay_line` call from a state satisfying the invariant:
it succeeds, writes `x` at the old write pointer, advances the write pointer
by one mod `N`, and keeps every read pointer in `[0, N)`. -/
lemma update_spec (st : DelayLine) (x : ℝ) (ds : List ℝ)
    (hinv : Inv st) (hlen : ds.length = st.read_ptr.length) :
    ∃ ys stf, update_delay_line st x ds = .ok (ys, stf) ∧
      stf.N = st.N ∧ stf.interpolation = st.interpolation ∧
      stf.delay_line = st.delay_line.set st.write_ptr.toNat x ∧
      stf.write_ptr = (st.write_ptr + 1) % st.N ∧
      stf.read_ptr.length = st.read_ptr.length ∧
      Inv stf := by
  obtain ⟨hN, hw0, hwN, hrp, hm, hrne, hdll⟩ := hinv
  obtain ⟨ys, wpf, rpsf, hloop, hysl, hrpl, hnil, hne, hbnd⟩ :=
    reader_loop_spec st.N (st.delay_line.set st.write_ptr.toNat x) st.interpolation hm hN
      st.read_ptr ds (st.write_ptr + 1) (by omega) hlen
  have hrpsf_ne : rpsf ≠ [] := by
    intro h
    rw [h] at hrpl
    simp only [List.length_nil] at hrpl
    exact hrne (List.eq_nil_of_length_eq_zero hrpl.symm)
  refine ⟨ys,
    { st with delay_line := st.delay_line.set st.write_ptr.toNat x,
              write_ptr := wpf, read_ptr := rpsf },
    ?_, rfl, rfl, rfl, ?_, ?_, ?_⟩
  · simp only [update_delay_line, hloop]
  · exact hne hrne
  · exact hrpl
  · refine ⟨hN, ?_, ?_, hbnd, hm, hrpsf_ne, ?_⟩
    · simp only [hne hrne]
      exact Int.emod_nonneg _ (ne_of_gt hN)
    · simp only [hne hrne]
      exact Int.emod_lt_of_pos _ hN
    · simp only [List.length_set]
      exact hdll

/-- The invariant is preserved along any run with well-sized delay vectors. -/
lemma run_collect_inv (steps : List (ℝ × List ℝ)) :
    ∀ st : DelayLine, Inv st → (∀ p ∈ steps, (p.2 : List ℝ).length = st.read_ptr.length) →
      ∃ yss stf, run_collect st steps = .ok (yss, stf) ∧ Inv stf ∧
        stf.read_ptr.length = st.read_ptr.length ∧ stf.N = st.N := by
  induction steps with
  | nil =>
    intro st h _
    exact ⟨[], st, rfl, h, rfl, rfl⟩
  | cons p rest ih =>
    intro st hinv hlen
    obtain ⟨x, ds⟩ := p
    obtain ⟨ys, st1, hup, hN1, _, _, _, hrl1, hinv1⟩ :=
      update_spec st x ds hinv (hlen (x, ds) (List.mem_cons_self _ _))
    obtain ⟨yss, stf, hrun, hinvf, hrlf, hNf⟩ :=
      ih st1 hinv1 (fun q hq => by rw [hrl1]; exact hlen q (by simp [hq]))
    exact ⟨ys :: yss, stf, by simp only [run_collect, hup, hrun], hinvf,
      by rw [hrlf, hrl1], by rw [hNf, hN1]⟩

/-- A successful construction satisfies the invariant, with the advertised
initial state. -/
lemma create_ok (N M : ℤ) (mode : String) (st : DelayLine)
    (h : create N M mode = .ok st) :
    Inv st ∧ st.N = N ∧ st.write_ptr = 0 ∧
      st.read_ptr = List.replicate M.toNat 0 ∧
      st.delay_line = List.replicate N.toNat 0 ∧ st.interpolation = mode ∧
      0 < N ∧ 0 < M ∧ ValidMode mode := by
  rw [create] at h
  by_cases h1 : N ≤ 0
  · rw [if_pos h1] at h
    exact absurd h (by simp)
  rw [if_neg h1] at h
  by_cases h2 : M ≤ 0
  · rw [if_pos h2] at h
    exact absurd h (by simp)
  rw [if_neg h2] at h
  by_cases h3 : mode ≠ "Linear" ∧ mode ≠ "Lagrange" ∧ mode ≠ "Sinc"
  · rw [if_pos h3] at h
    exact absurd h (by simp)
  rw [if_neg h3] at h
  · have hN : 0 < N := lt_of_not_le h1
    have hM : 0 < M := lt_of_not_le h2
    have hmode : ValidMode mode := by
      rcases not_and_or.mp h3 with hv | hv
      · exact Or.inl (not_not.mp hv)
      · rcases not_and_or.mp hv with hw | hw
        · exact Or.inr (Or.inl (not_not.mp hw))
        · exact Or.inr (Or.inr (not_not.mp hw))
    injection h with h4
    subst h4
    refine ⟨⟨hN, le_refl 0, hN, ?_, hmode, ?_, by simp⟩, rfl, rfl, rfl, rfl, rfl, hN, hM, hmode⟩
    · intro r hr
      rw [List.eq_of_mem_replicate hr]
      refine ⟨le_refl 0, ?_⟩
      exact_mod_cast hN
    · simp only [ne_eq, List.replicate_eq_nil_iff]
      omega

/-- Overwriting position `wn` and taking the first `wn + 1` elements splits
off the new element. -/
lemma set_take_split (dl : List ℝ) (wn : ℕ) (x : ℝ) (hw : wn < dl.length) :
    (dl.set wn x).take (wn + 1) = dl.take wn ++ [x] := by
  rw [List.set_eq_take_cons_drop x hw]
  rw [List.take_append_eq_append_take]
  rw [List.take_take]
  rw [min_eq_right (Nat.le_succ wn)]
  rw [List.length_take, min_eq_left (Nat.le_of_lt hw)]
  rw [show wn + 1 - wn = 1 from by omega]
  simp

/-- Buffer contents along a run that stays within the current lap of the
ring: each sample lands at the next position, in order. -/
lemma run_collect_buffer (steps : List (ℝ × List ℝ)) :
    ∀ st : DelayLine, Inv st → (∀ p ∈ steps, (p.2 : List ℝ).length = st.read_ptr.length) →
      st.write_ptr.toNat + steps.length ≤ st.N.toNat →
      ∃ yss stf, run_collect st steps = .ok (yss, stf) ∧
        stf.delay_line = st.delay_line.take st.write_ptr.toNat ++ steps.map Prod.fst
          ++ st.delay_line.drop (st.write_ptr.toNat + steps.length) ∧
        stf.write_ptr = (st.write_ptr + (steps.length : ℤ)) % st.N ∧
        Inv stf ∧ stf.read_ptr.length = st.read_ptr.length ∧ stf.N = st.N := by
  induction steps with
  | nil =>
    intro st hinv hlen hbound
    refine ⟨[], st, rfl, ?_, ?_, hinv, rfl, rfl⟩
    · simp
    · simp only [List.length_nil, Nat.cast_zero, add_zero]
      exact (Int.emod_eq_of_lt hinv.2.1 hinv.2.2.1).symm
  | cons p rest ih =>
    intro st hinv hlen hbound
    obtain ⟨x, ds⟩ := p
    have hN := hinv.1
    have hw0 := hinv.2.1
    have hdll := hinv.2.2.2.2.2.2
    obtain ⟨ys, st1, hup, hN1, hm1, hdl1, hwp1, hrl1, hinv1⟩ :=
      update_spec st x ds hinv (hlen (x, ds) (List.mem_cons_self _ _))
    have hwlt : st.write_ptr.toNat < st.delay_line.length := by
      rw [hdll]
      simp only [List.length_cons] at hbound
      omega
    have hw1N : st.write_ptr + 1 ≤ st.N := by
      simp only [List.length_cons] at hbound
      omega
    rcases lt_or_eq_of_le hw1N with hlt | hEq
    · -- the write pointer does not wrap on this step
      have hwp1' : st1.write_ptr = st.write_ptr + 1 := by
        rw [hwp1]
        exact Int.emod_eq_of_lt (by omega) hlt
      have hwp1n : st1.write_ptr.toNat = st.write_ptr.toNat + 1 := by
        rw [hwp1']
        omega
      obtain ⟨yss, stf, hrun, hdlf, hwpf, hinvf, hrlf, hNf⟩ :=
        ih st1 hinv1
          (fun q hq => by rw [hrl1]; exact hlen q (List.mem_cons_of_mem _ hq))
          (by rw [hwp1n, hN1]; simp only [List.length_cons] at hbound; omega)
      refine ⟨ys :: yss, stf, ?_, ?_, ?_, hinvf, by rw [hrlf, hrl1], by rw [hNf, hN1]⟩
      · simp only [run_collect, hup, hrun]
      · rw [hdlf, hdl1, hwp1n]
        rw [set_take_split st.delay_line st.write_ptr.toNat x hwlt]
        rw [List.drop_set_of_lt x st.delay_line (by omega)]
        rw [show st.write_ptr.toNat + 1 + rest.length
              = st.write_ptr.toNat + ((x, ds) :: rest).length from by
            simp only [List.length_cons]
            omega]
        simp [List.append_assoc]
      · rw [hwpf, hwp1', hN1]
        congr 1
        simp only [List.length_cons]
        push_cast
        ring
    · -- the write pointer reaches `N` and wraps to `0`; this is the last step
      have ht0 : rest.length = 0 := by
        simp only [List.length_cons] at hbound
        omega
      have hrest : rest = [] := List.eq_nil_of_length_eq_zero ht0
      subst hrest
      refine ⟨[ys], st1, ?_, ?_, ?_, hinv1, hrl1, hN1⟩
      · simp only [run_collect, hup]
      · rw [hdl1]
        rw [List.set_eq_take_cons_drop x hwlt]
        simp
      · rw [hwp1]
        simp



/-! ## Claim theorems -/

/-- Claim C10: for every fractional offset `d`, the 6 coefficients produced by
the order-5 Lagrange routine `_frac_delay_lagrange(5, d)` sum exactly to 1:
the Lagrange basis polynomials form a partition of unity, so the
interpolation filter has unit DC gain regardless of `d`. -/
theorem lagrange_coefficients_sum_one (d : ℝ) :
    (frac_delay_lagrange 5 d).sum = 1 := by
  simp [frac_delay_lagrange, List.range_succ, lagrange_update]
  ring

/-- Claim C2 (counterexample): in Lagrange mode with `d = 0`, reading buffer
`[0,1,…,9]` (capacity 10) at integer position `k = 5` returns `3`, the value
at index `5 - 2 = 3`, not the value `5` stored at the exact integer index
`k = 5`; the difference exceeds the claimed `1e-9` tolerance. -/
theorem lagrange_zero_offset_counterexample :
    interpolated_read exampleBuffer 10 5 0 "Lagrange" = .ok 3 ∧
      exampleBuffer.getD 5 0 = 5 ∧ ¬ |(3 : ℝ) - 5| ≤ 1e-9 := by
  refine ⟨?_, by norm_num [exampleBuffer], by norm_num⟩
  simp [interpolated_read, frac_delay_lagrange, List.range_succ, lagrange_update,
    exampleBuffer]

/-- Claim C2 (amended): in Lagrange mode, for every buffer content and read
position `k`, if the fractional part `d` equals `0` then the interpolated
read output equals the buffer value at index `(k - 2) mod N` — the exact
integer index shifted by `floor(order/2) = 2` taps — exactly (hence within
any tolerance). -/
theorem lagrange_zero_offset_reads_shifted_index (dl : List ℝ) (N k : ℤ) :
    interpolated_read dl N k 0 "Lagrange" = .ok (dl.getD ((k - 2) % N).toNat 0) := by
  simp [interpolated_read, frac_delay_lagrange, List.range_succ, lagrange_update]

/-- Claim C4: in Linear mode, for every buffer content, integer base index
`k ∈ [0, N)` and fractional offset `d ∈ [0, 1)`, the interpolated read equals
`d * buf[(k+1) mod N] + (1-d) * buf[k]`. -/
theorem linear_read_formula (dl : List ℝ) (N k : ℤ) (d : ℝ)
    (hk0 : 0 ≤ k) (hkN : k < N) (hd0 : 0 ≤ d) (hd1 : d < 1) :
    interpolated_read dl N k d "Linear"
      = .ok (d * dl.getD ((k + 1) % N).toNat 0 + (1 - d) * dl.getD k.toNat 0) := by
  simp [interpolated_read, linear_ne_lagrange]

/-- Witness for claim C4 at buffer `[0,…,9]`, `N = 10`, `k = 5`, `d = 1/2`. -/
theorem linear_read_formula_witness :
    (0 : ℤ) ≤ 5 ∧ (5 : ℤ) < 10 ∧ (0 : ℝ) ≤ 1/2 ∧ (1/2 : ℝ) < 1 ∧
    interpolated_read exampleBuffer 10 5 (1/2) "Linear"
      = .ok ((1/2) * exampleBuffer.getD (((5 : ℤ) + 1) % 10).toNat 0
        + (1 - 1/2) * exampleBuffer.getD (5 : ℤ).toNat 0) :=
  ⟨by norm_num, by norm_num, by norm_num, by norm_num,
    linear_read_formula exampleBuffer 10 5 (1/2)
      (by norm_num) (by norm_num) (by norm_num) (by norm_num)⟩

/-- Claim C6: `create(N, M, interpolationMode)` fails with `InvalidArgument`
when `N ≤ 0`, when `M ≤ 0`, or when the mode is not one of Linear, Lagrange,
Sinc; on success it produces a zero-filled buffer of `N` samples, write
pointer `0`, and `M` read pointers all at `0.0`. -/
theorem create_validation (N M : ℤ) (mode : String) :
    (N ≤ 0 → create N M mode = .error .invalidArgument) ∧
    (M ≤ 0 → create N M mode = .error .invalidArgument) ∧
    (¬ ValidMode mode → create N M mode = .error .invalidArgument) ∧
    (0 < N → 0 < M → ValidMode mode →
      create N M mode
        = .ok { N := N, write_ptr := 0, read_ptr := List.replicate M.toNat 0,
                delay_line := List.replicate N.toNat 0, interpolation := mode }) := by
  refine ⟨?_, ?_, ?_, ?_⟩
  · intro h1
    rw [create, if_pos h1]
  · intro h2
    rw [create]
    by_cases h1 : N ≤ 0
    · rw [if_pos h1]
    · rw [if_neg h1, if_pos h2]
  · intro h3
    rw [create]
    by_cases h1 : N ≤ 0
    · rw [if_pos h1]
    by_cases h2 : M ≤ 0
    · rw [if_neg h1, if_pos h2]
    rw [if_neg h1, if_neg h2, if_pos]
    rw [ValidMode] at h3
    push_neg at h3
    exact h3
  · intro hN hM hv
    rw [create, if_neg (by omega), if_neg (by omega), if_neg]
    intro hcon
    rcases hv with h | h | h
    · exact hcon.1 h
    · exact hcon.2.1 h
    · exact hcon.2.2 h

/-- Witness for claim C6: `create 10 2 Sinc` succeeds with the advertised
state. -/
theorem create_validation_witness :
    (0 : ℤ) < 10 ∧ (0 : ℤ) < 2 ∧ ValidMode "Sinc" ∧
    create 10 2 "Sinc"
      = .ok { N := 10, write_ptr := 0, read_ptr := List.replicate (2 : ℤ).toNat 0,
              delay_line := List.replicate (10 : ℤ).toNat 0, interpolation := "Sinc" } :=
  ⟨by norm_num, by norm_num, Or.inr (Or.inr rfl),
    (create_validation 10 2 "Sinc").2.2.2 (by norm_num) (by norm_num)
      (Or.inr (Or.inr rfl))⟩

/-- Claim C5: `set_delays` fails `InvalidArgument` on a nonpositive delay or a
length mismatch and `OutOfRange` on a delay `≥ N`, in each case returning the
error (validation precedes any mutation); on success each read pointer is
`write_ptr - delay[i]`, plus `N` once if negative, which lies in `[0, N)`. -/
theorem set_delays_spec (st : DelayLine) (delay : List ℝ)
    (hw0 : 0 ≤ st.write_ptr) (hwN : st.write_ptr < st.N) :
    ((∃ d ∈ delay, d ≤ 0) → set_delays st delay = .error .invalidArgument) ∧
    ((∀ d ∈ delay, 0 < d) → delay.length ≠ st.read_ptr.length →
      set_delays st delay = .error .invalidArgument) ∧
    ((∀ d ∈ delay, 0 < d) → delay.length = st.read_ptr.length →
      (∃ d ∈ delay, (st.N : ℝ) ≤ d) → set_delays st delay = .error .outOfRange) ∧
    ((∀ d ∈ delay, 0 < d ∧ d < (st.N : ℝ)) → delay.length = st.read_ptr.length →
      ∃ st', set_delays st delay = .ok st' ∧
        st'.read_ptr = delay.map (fun d =>
          let r := (st.write_ptr : ℝ) - d
          if r < 0 then r + (st.N : ℝ) else r) ∧
        (∀ r ∈ st'.read_ptr, 0 ≤ r ∧ r < (st.N : ℝ)) ∧
        st'.N = st.N ∧ st'.write_ptr = st.write_ptr ∧
        st'.delay_line = st.delay_line ∧ st'.interpolation = st.interpolation) := by
  have hw0R : (0 : ℝ) ≤ (st.write_ptr : ℝ) := by exact_mod_cast hw0
  have hwNR : (st.write_ptr : ℝ) < (st.N : ℝ) := by exact_mod_cast hwN
  refine ⟨?_, ?_, ?_, ?_⟩
  · intro h
    rw [set_delays, if_pos h]
  · intro hpos hne
    rw [set_delays, if_neg, if_pos hne]
    rintro ⟨d, hd, hle⟩
    exact absurd hle (not_le.mpr (hpos d hd))
  · intro hpos hlen hex
    rw [set_delays, if_neg, if_neg (fun hc => hc hlen), if_pos hex]
    rintro ⟨d, hd, hle⟩
    exact absurd hle (not_le.mpr (hpos d hd))
  · intro hall hlen
    rw [set_delays, if_neg, if_neg (fun hc => hc hlen), if_neg]
    · refine ⟨_, rfl, rfl, ?_, rfl, rfl, rfl, rfl⟩
      intro r hr
      obtain ⟨d, hd, rfl⟩ := List.mem_map.mp hr
      obtain ⟨hd0, hdN⟩ := hall d hd
      by_cases hneg : (st.write_ptr : ℝ) - d < 0
      · simp only [if_pos hneg]
        constructor
        · linarith
        · linarith
      · simp only [if_neg hneg]
        constructor
        · linarith
        · linarith
    · rintro ⟨d, hd, hle⟩
      exact absurd hle (not_le.mpr (hall d hd).2)
    · rintro ⟨d, hd, hle⟩
      exact absurd hle (not_le.mpr (hall d hd).1)

/-- Witness for claim C5: capacity 10, one reader at `0.0`, `set_delays [3]`
succeeds and sets the read pointer to `(0 - 3) + 10 = 7`. -/
theorem set_delays_spec_witness :
    (0 : ℤ) ≤ 0 ∧ (0 : ℤ) < 10 ∧ (∀ d ∈ [(3 : ℝ)], 0 < d ∧ d < ((10 : ℤ) : ℝ)) ∧
    ([(3 : ℝ)].map (fun d =>
        let r := (((0 : ℤ) : ℝ)) - d
        if r < 0 then r + ((10 : ℤ) : ℝ) else r) = [7]) ∧
    ∃ st', set_delays ⟨10, 0, [0], [0, 0, 0, 0, 0, 0, 0, 0, 0, 0], "Linear"⟩ [3] = .ok st' ∧
      st'.read_ptr = [(3 : ℝ)].map (fun d =>
        let r := (((0 : ℤ) : ℝ)) - d
        if r < 0 then r + ((10 : ℤ) : ℝ) else r) ∧
      (∀ r ∈ st'.read_ptr, 0 ≤ r ∧ r < ((10 : ℤ) : ℝ)) ∧
      st'.N = 10 ∧ st'.write_ptr = 0 ∧
      st'.delay_line = [0, 0, 0, 0, 0, 0, 0, 0, 0, 0] ∧ st'.interpolation = "Linear" :=
  ⟨le_refl 0, by norm_num, by norm_num, by norm_num,
    (set_delays_spec ⟨10, 0, [0], [0, 0, 0, 0, 0, 0, 0, 0, 0, 0], "Linear"⟩ [3]
      (le_refl 0) (by norm_num)).2.2.2 (by norm_num) (by norm_num)⟩

/-- Claim C9: for every successfully constructed mode and read position
`k ∈ [0, N)`, `_interpolated_read` returns a value (the defensive
unrecognized-mode branch is unreachable) and every buffer index it accesses
lies in `[0, N)`. -/
theorem interpolated_read_safe (dl : List ℝ) (N k : ℤ) (d : ℝ) (method : String)
    (hm : ValidMode method) (hN : 0 < N) (hk0 : 0 ≤ k) (hkN : k < N) :
    (∃ y, interpolated_read dl N k d method = .ok y) ∧
    ∀ idx ∈ accessed_indices method k N, 0 ≤ idx ∧ idx < N := by
  refine ⟨interpolated_read_ok dl N k d method hm, ?_⟩
  have hmod : ∀ a : ℤ, 0 ≤ a % N ∧ a % N < N := fun a =>
    ⟨Int.emod_nonneg a (ne_of_gt hN), Int.emod_lt_of_pos a hN⟩
  intro idx hidx
  rcases hm with h | h | h <;> subst h
  · rw [accessed_indices, if_neg linear_ne_lagrange, if_pos rfl] at hidx
    rcases List.mem_cons.mp hidx with h | h
    · subst h
      exact hmod _
    · rw [List.mem_singleton] at h
      subst h
      exact ⟨hk0, hkN⟩
  · rw [accessed_indices, if_pos rfl] at hidx
    obtain ⟨i, -, rfl⟩ := List.mem_map.mp hidx
    exact hmod _
  · rw [accessed_indices, if_neg sinc_ne_lagrange, if_neg sinc_ne_linear,
      if_pos rfl] at hidx
    obtain ⟨i, -, rfl⟩ := List.mem_map.mp hidx
    exact hmod _

/-- Witness for claim C9 in Sinc mode at `N = 10`, `k = 5`, `d = 1/2`. -/
theorem interpolated_read_safe_witness :
    ValidMode "Sinc" ∧ (0 : ℤ) < 10 ∧ (0 : ℤ) ≤ 5 ∧ (5 : ℤ) < 10 ∧
    ((∃ y, interpolated_read exampleBuffer 10 5 (1/2) "Sinc" = .ok y) ∧
      ∀ idx ∈ accessed_indices "Sinc" 5 10, 0 ≤ idx ∧ idx < 10) :=
  ⟨Or.inr (Or.inr rfl), by norm_num, by norm_num, by norm_num,
    interpolated_read_safe exampleBuffer 10 5 (1/2) "Sinc" (Or.inr (Or.inr rfl))
      (by norm_num) (by norm_num) (by norm_num)⟩

/-- Claim C1: from any successfully constructed `DelayLine`, for every sequence
of `update_delay_line` calls whose delay vectors have one finite nonnegative
entry per read pointer (entries may equal or exceed `N` and may change
arbitrarily between calls), every call succeeds and afterwards
`0 ≤ write_ptr < N` and `0 ≤ read_ptr[i] < N` for every `i`.  (Since every
prefix of `steps` is itself such a sequence, the bounds hold after every
intermediate call as well.) -/
theorem wraparound_invariant (N M : ℤ) (mode : String) (st0 : DelayLine)
    (hc : create N M mode = .ok st0)
    (steps : List (ℝ × List ℝ))
    (hsteps : ∀ p ∈ steps, (∀ dv ∈ p.2, (0 : ℝ) ≤ dv) ∧
      p.2.length = st0.read_ptr.length) :
    ∃ yss stf, run_collect st0 steps = .ok (yss, stf) ∧
      0 ≤ stf.write_ptr ∧ stf.write_ptr < N ∧
      ∀ r ∈ stf.read_ptr, 0 ≤ r ∧ r < (N : ℝ) := by
  obtain ⟨hinv, hN0, -, -, -, -, -, -, -⟩ := create_ok N M mode st0 hc
  obtain ⟨yss, stf, hrun, hinvf, -, hNf⟩ :=
    run_collect_inv steps st0 hinv (fun p hp => (hsteps p hp).2)
  refine ⟨yss, stf, hrun, hinvf.2.1, ?_, ?_⟩
  · rw [← hN0, ← hNf]
    exact hinvf.2.2.1
  · intro r hr
    rw [← hN0, ← hNf]
    exact hinvf.2.2.2.1 r hr

/-- Witness for claim C1: capacity 3, one reader, two steps whose delays `7`
and `1` jump by more than the buffer length between calls. -/
theorem wraparound_invariant_witness :
    create 3 1 "Linear" = .ok ⟨3, 0, [0], [0, 0, 0], "Linear"⟩ ∧
    (∀ p ∈ [((5 : ℝ), [(7 : ℝ)]), ((2 : ℝ), [(1 : ℝ)])],
      (∀ dv ∈ p.2, (0 : ℝ) ≤ dv) ∧
        p.2.length = (DelayLine.read_ptr ⟨3, 0, [0], [0, 0, 0], "Linear"⟩).length) ∧
    ∃ yss stf,
      run_collect ⟨3, 0, [0], [0, 0, 0], "Linear"⟩
          [((5 : ℝ), [(7 : ℝ)]), ((2 : ℝ), [(1 : ℝ)])] = .ok (yss, stf) ∧
        0 ≤ stf.write_ptr ∧ stf.write_ptr < 3 ∧
        ∀ r ∈ stf.read_ptr, 0 ≤ r ∧ r < ((3 : ℤ) : ℝ) :=
  have hc : create 3 1 "Linear" = .ok ⟨3, 0, [0], [0, 0, 0], "Linear"⟩ := by
    norm_num [create]
    simp [List.replicate]
  have hs : ∀ p ∈ [((5 : ℝ), [(7 : ℝ)]), ((2 : ℝ), [(1 : ℝ)])],
      (∀ dv ∈ p.2, (0 : ℝ) ≤ dv) ∧
        p.2.length = (DelayLine.read_ptr ⟨3, 0, [0], [0, 0, 0], "Linear"⟩).length := by
    norm_num
  ⟨hc, hs, wraparound_invariant 3 1 "Linear" _ hc _ hs⟩

/-- Claim C3: with Linear interpolation, capacity 10, one reader and a delay
fixed at `3.0` (set via `set_delays` and passed to every step), feeding the
impulse `1, 0, 0, 0` produces the outputs `0, 0, 0, 1`: the impulse emerges
exactly at step 3. -/
theorem linear_impulse_delay_three :
    (create 10 1 "Linear").bind (fun st0 =>
      (set_delays st0 [3]).bind (fun st1 =>
        (run_collect st1 [(1, [3]), (0, [3]), (0, [3]), (0, [3])]).map Prod.fst))
      = .ok [[0], [0], [0], [1]] := by
  have h0 : create 10 1 "Linear"
      = .ok { N := 10, write_ptr := 0, read_ptr := [0],
              delay_line := [0, 0, 0, 0, 0, 0, 0, 0, 0, 0],
              interpolation := "Linear" } := by
    norm_num [create]
    simp [List.replicate]
  have h1 : set_delays
      { N := 10, write_ptr := 0, read_ptr := [(0 : ℝ)],
        delay_line := [0, 0, 0, 0, 0, 0, 0, 0, 0, 0],
        interpolation := "Linear" } [3]
      = .ok { N := 10, write_ptr := 0, read_ptr := [7],
              delay_line := [0, 0, 0, 0, 0, 0, 0, 0, 0, 0],
              interpolation := "Linear" } := by
    norm_num [set_delays]
  have h2 : update_delay_line
      { N := 10, write_ptr := 0, read_ptr := [(7 : ℝ)],
        delay_line := [0, 0, 0, 0, 0, 0, 0, 0, 0, 0],
        interpolation := "Linear" } 1 [3]
      = .ok ([0],
          { N := 10, write_ptr := 1, read_ptr := [8],
            delay_line := [1, 0, 0, 0, 0, 0, 0, 0, 0, 0],
            interpolation := "Linear" }) := by
    norm_num [update_delay_line, reader_loop, interpolated_read, linear_ne_lagrange,
      whileAddN_of_nonneg, whileAddN_of_neg, whileSubN_of_lt,
      whileSubN_of_ge, whileSubW_of_lt, whileSubW_of_ge]
    simp
  have h3 : update_delay_line
      { N := 10, write_ptr := 1, read_ptr := [(8 : ℝ)],
        delay_line := [1, 0, 0, 0, 0, 0, 0, 0, 0, 0],
        interpolation := "Linear" } 0 [3]
      = .ok ([0],
          { N := 10, write_ptr := 2, read_ptr := [9],
            delay_line := [1, 0, 0, 0, 0, 0, 0, 0, 0, 0],
            interpolation := "Linear" }) := by
    norm_num [update_delay_line, reader_loop, interpolated_read, linear_ne_lagrange,
      whileAddN_of_nonneg, whileAddN_of_neg, whileSubN_of_lt,
      whileSubN_of_ge, whileSubW_of_lt, whileSubW_of_ge]
    simp
  have h4 : update_delay_line
      { N := 10, write_ptr := 2, read_ptr := [(9 : ℝ)],
        delay_line := [1, 0, 0, 0, 0, 0, 0, 0, 0, 0],
        interpolation := "Linear" } 0 [3]
      = .ok ([0],
          { N := 10, write_ptr := 3, read_ptr := [0],
            delay_line := [1, 0, 0, 0, 0, 0, 0, 0, 0, 0],
            interpolation := "Linear" }) := by
    norm_num [update_delay_line, reader_loop, interpolated_read, linear_ne_lagrange,
      whileAddN_of_nonneg, whileAddN_of_neg, whileSubN_of_lt,
      whileSubN_of_ge, whileSubW_of_lt, whileSubW_of_ge]
    simp
  have h5 : update_delay_line
      { N := 10, write_ptr := 3, read_ptr := [(0 : ℝ)],
        delay_line := [1, 0, 0, 0, 0, 0, 0, 0, 0, 0],
        interpolation := "Linear" } 0 [3]
      = .ok ([1],
          { N := 10, write_ptr := 4, read_ptr := [1],
            delay_line := [1, 0, 0, 0, 0, 0, 0, 0, 0, 0],
            interpolation := "Linear" }) := by
    norm_num [update_delay_line, reader_loop, interpolated_read, linear_ne_lagrange,
      whileAddN_of_nonneg, whileAddN_of_neg, whileSubN_of_lt,
      whileSubN_of_ge, whileSubW_of_lt, whileSubW_of_ge]
    simp
  rw [h0]
  simp only [Except.bind]
  rw [h1]
  simp only [Except.bind]
  simp [run_collect, h2, h3, h4, h5, Except.map]

/-- Claim C8: starting from a freshly created `DelayLine` of capacity `N`,
after `N` steps the buffer holds exactly the `N` inputs in write order, and
one further step overwrites the oldest sample (position 0). -/
theorem buffer_write_order (N M : ℤ) (mode : String) (st0 : DelayLine)
    (hc : create N M mode = .ok st0)
    (steps : List (ℝ × List ℝ))
    (hlen : ∀ p ∈ steps, (p.2 : List ℝ).length = st0.read_ptr.length)
    (hcount : steps.length = N.toNat)
    (x' : ℝ) (ds' : List ℝ) (hds' : ds'.length = st0.read_ptr.length) :
    ∃ yss stf, run_collect st0 steps = .ok (yss, stf) ∧
      stf.delay_line = steps.map Prod.fst ∧
      ∃ ys' stf', update_delay_line stf x' ds' = .ok (ys', stf') ∧
        stf'.delay_line = (steps.map Prod.fst).set 0 x' := by
  obtain ⟨hinv, hN0, hwp0, -, hdl0, -, hNpos, -, -⟩ := create_ok N M mode st0 hc
  have hwpt : st0.write_ptr.toNat = 0 := by
    rw [hwp0]
    rfl
  obtain ⟨yss, stf, hrun, hdlf, hwpf, hinvf, hrlf, hNf⟩ :=
    run_collect_buffer steps st0 hinv hlen (by rw [hwpt, hcount, hN0]; omega)
  have hdlf' : stf.delay_line = steps.map Prod.fst := by
    rw [hdlf, hwpt, hdl0, hcount]
    simp [List.drop_eq_nil_of_le]
  have hwpf' : stf.write_ptr = 0 := by
    rw [hwpf, hwp0, hcount, hN0, zero_add, Int.toNat_of_nonneg (le_of_lt hNpos),
      Int.emod_self]
  obtain ⟨ys', stf', hup, -, -, hdl', -, -, -⟩ :=
    update_spec stf x' ds' hinvf (by rw [hds', ← hrlf])
  refine ⟨yss, stf, hrun, hdlf', ys', stf', hup, ?_⟩
  rw [hdl', hdlf', hwpf']
  rfl

/-- Witness for claim C8: capacity 2, one reader, inputs `5, 6`, then a third
step with input `9` that overwrites the oldest sample `5`. -/
theorem buffer_write_order_witness :
    create 2 1 "Linear" = .ok ⟨2, 0, [0], [0, 0], "Linear"⟩ ∧
    (∀ p ∈ [((5 : ℝ), [(1 : ℝ)]), ((6 : ℝ), [(1 : ℝ)])],
      (p.2 : List ℝ).length = (DelayLine.read_ptr ⟨2, 0, [0], [0, 0], "Linear"⟩).length) ∧
    ([((5 : ℝ), [(1 : ℝ)]), ((6 : ℝ), [(1 : ℝ)])].length = (2 : ℤ).toNat) ∧
    ([(1 : ℝ)].length = (DelayLine.read_ptr ⟨2, 0, [0], [0, 0], "Linear"⟩).length) ∧
    ∃ yss stf,
      run_collect ⟨2, 0, [0], [0, 0], "Linear"⟩
          [((5 : ℝ), [(1 : ℝ)]), ((6 : ℝ), [(1 : ℝ)])] = .ok (yss, stf) ∧
        stf.delay_line = [((5 : ℝ), [(1 : ℝ)]), ((6 : ℝ), [(1 : ℝ)])].map Prod.fst ∧
        ∃ ys' stf', update_delay_line stf 9 [1] = .ok (ys', stf') ∧
          stf'.delay_line
            = ([((5 : ℝ), [(1 : ℝ)]), ((6 : ℝ), [(1 : ℝ)])].map Prod.fst).set 0 9 :=
  have hc : create 2 1 "Linear" = .ok ⟨2, 0, [0], [0, 0], "Linear"⟩ := by
    norm_num [create]
    simp [List.replicate]
  have hl : ∀ p ∈ [((5 : ℝ), [(1 : ℝ)]), ((6 : ℝ), [(1 : ℝ)])],
      (p.2 : List ℝ).length = (DelayLine.read_ptr ⟨2, 0, [0], [0, 0], "Linear"⟩).length := by
    norm_num
  ⟨hc, hl, by decide, by norm_num,
    buffer_write_order 2 1 "Linear" _ hc _ hl (by decide) 9 [1] (by norm_num)⟩





open Real in
/-- Claim C7 (counterexample): for `d = 0.5` the 11-tap Hann-windowed sinc
coefficient vector is *not* symmetric about its center index: the
coefficients at taps 1 and `10 - 1 = 9` differ by more than `1e-9`
(`h[1] = w[1]·2/(9π) > 0` while `h[9] = -w[1]·2/(7π) < 0`). -/
theorem sinc_symmetry_counterexample :
    1e-9 < |(frac_delay_sinc 11 (hanning 11) (1/2)).getD 1 0
      - (frac_delay_sinc 11 (hanning 11) (1/2)).getD 9 0| := by
  have hg1 : (frac_delay_sinc 11 (hanning 11) (1/2)).getD 1 0
      = (0.5 - 0.5 * Real.cos (2 * Real.pi * 1 / 10)) * npSinc (1 - 5 - 1/2) := by
    simp [frac_delay_sinc, hanning, List.range_succ]
    norm_num
  have hg9 : (frac_delay_sinc 11 (hanning 11) (1/2)).getD 9 0
      = (0.5 - 0.5 * Real.cos (2 * Real.pi * 9 / 10)) * npSinc (9 - 5 - 1/2) := by
    simp [frac_delay_sinc, hanning, List.range_succ]
    norm_num
  have hs1 : npSinc ((1 : ℝ) - 5 - 1/2) = 2 / (9 * π) := by
    rw [npSinc, if_neg (by norm_num)]
    have harg : Real.pi * ((1 : ℝ) - 5 - 1/2) = -((π/2 + 2*π) + 2*π) := by ring
    rw [harg, Real.sin_neg]
    rw [Real.sin_add_two_pi, Real.sin_add_two_pi, Real.sin_pi_div_two]
    have hden : -((π/2 + 2*π) + 2*π) ≠ 0 := ne_of_lt (by nlinarith [Real.pi_pos])
    rw [div_eq_div_iff hden (by positivity)]
    ring
  have hs9 : npSinc ((9 : ℝ) - 5 - 1/2) = -(2 / (7 * π)) := by
    rw [npSinc, if_neg (by norm_num)]
    have harg : Real.pi * ((9 : ℝ) - 5 - 1/2) = (π + π/2) + 2*π := by ring
    rw [harg, Real.sin_add_two_pi]
    rw [Real.sin_add, Real.sin_pi, Real.cos_pi, Real.sin_pi_div_two, Real.cos_pi_div_two]
    have hpi : (π : ℝ) ≠ 0 := ne_of_gt Real.pi_pos
    field_simp
    ring
  have hc1 : Real.cos (2 * π * 1 / 10) = Real.cos (π / 5) := by
    rw [show 2 * π * 1 / 10 = π / 5 from by ring]
  have hc9 : Real.cos (2 * π * 9 / 10) = Real.cos (π / 5) := by
    rw [show 2 * π * 9 / 10 = 2*π - π/5 from by ring]
    exact Real.cos_two_pi_sub _
  rw [hg1, hg9, hs1, hs9, hc1, hc9]
  have hw : (3 : ℝ)/32 < 0.5 - 0.5 * Real.cos (π / 5) := by
    rw [Real.cos_pi_div_five]
    have h5 : Real.sqrt 5 < 9/4 := by
      nlinarith [Real.sq_sqrt (show (0:ℝ) ≤ 5 by norm_num), Real.sqrt_nonneg 5]
    nlinarith
  have hwpos : (0 : ℝ) < 0.5 - 0.5 * Real.cos (π / 5) := by linarith
  have hX : (0.5 - 0.5 * Real.cos (π / 5)) * (2 / (9 * π))
      - (0.5 - 0.5 * Real.cos (π / 5)) * -(2 / (7 * π))
      = (0.5 - 0.5 * Real.cos (π / 5)) * (32 / (63 * π)) := by
    ring
  rw [hX, abs_of_pos (mul_pos hwpos (by positivity))]
  have hS : 32/(63*(3.15 : ℝ)) < 32/(63*π) := by
    apply div_lt_div_of_pos_left (by norm_num) (by positivity)
    have := Real.pi_lt_d2
    nlinarith
  calc (1e-9 : ℝ) < (3/32) * (32/(63*(3.15 : ℝ))) := by norm_num
    _ ≤ (0.5 - 0.5 * Real.cos (π / 5)) * (32/(63*π)) :=
        le_of_lt (mul_lt_mul' hw.le hS (by norm_num) hwpos)

open Real in
/-- Claim C7 (amended): for `d = 0.5` the two factors of the 11-tap windowed
sinc coefficient `h[j] = window[j] * sinc(j - 5 - d)` are each symmetric, but
about *different* centers: the Hann window satisfies `w[j] = w[10-j]`
(center 5) while the sinc kernel satisfies `sinc`-factor`(j)` =
`sinc`-factor`(11-j)` (center 5.5); their product is therefore not symmetric
about index 5 (see the counterexample). -/
theorem sinc_window_and_kernel_symmetry (j : ℕ) (hj1 : 1 ≤ j) (hj : j ≤ 10) :
    (hanning 11).getD j 0 = (hanning 11).getD (10 - j) 0 ∧
    npSinc ((j : ℝ) - ((11 : ℝ) - 1)/2 - 1/2)
      = npSinc ((((11 - j : ℕ) : ℝ)) - ((11 : ℝ) - 1)/2 - 1/2) := by
  have hjR : ((10 - j : ℕ) : ℝ) = 10 - (j : ℝ) := by
    push_cast [hj]
    ring
  have hj11R : ((11 - j : ℕ) : ℝ) = 11 - (j : ℝ) := by
    push_cast [show j ≤ 11 from by omega]
    ring
  constructor
  · rw [hanning_getD 11 j (by omega), hanning_getD 11 (10 - j) (by omega), hjR]
    have h11 : ((11 : ℕ) : ℝ) - 1 = 10 := by norm_num
    rw [h11]
    rw [show 2 * π * (10 - (j : ℝ)) / 10 = 2 * π - 2 * π * (j : ℝ) / 10 from by ring]
    rw [Real.cos_two_pi_sub]
  · rw [hj11R]
    rw [show (11 : ℝ) - (j : ℝ) - ((11 : ℝ) - 1)/2 - 1/2
        = -((j : ℝ) - ((11 : ℝ) - 1)/2 - 1/2) from by ring]
    rw [npSinc_neg]

/-- Witness for the amended C7 at `j = 1`. -/
theorem sinc_window_and_kernel_symmetry_witness :
    1 ≤ 1 ∧ (1 : ℕ) ≤ 10 ∧
    ((hanning 11).getD 1 0 = (hanning 11).getD (10 - 1) 0 ∧
      npSinc (((1 : ℕ) : ℝ) - ((11 : ℝ) - 1)/2 - 1/2)
        = npSinc ((((11 - 1 : ℕ) : ℝ)) - ((11 : ℝ) - 1)/2 - 1/2)) :=
  ⟨le_refl 1, by norm_num, sinc_window_and_kernel_symmetry 1 (le_refl 1) (by norm_num)⟩

end Pyroadacoustics
